import Mathlib

/-!
Shallow embedding of the depinkit/did repository (key-method DID codec and
trust context) together with proofs of the specification claims.

Strings are modelled as `List Char` (all strings in scope are ASCII), byte
slices as `List Nat` with an explicit `< 256` bound where it matters, and
timestamps as `Nat` passed explicitly in place of `time.Now()`.
-/

namespace Did

/-! ### Positional digit representations

Generic little-endian digit machinery shared by the base-58 text codec and
the base-256 byte serialization used by the multibase layer (mr-tron/base58,
as called through go-multibase). `digitsLE` carries explicit fuel so the
definition is structural and kernel-reducible; every use supplies fuel that
dominates the number of digits.
-/

/-- Value of a little-endian digit list. -/
def fromDigitsLE (base : Nat) (ds : List Nat) : Nat :=
  ds.foldr (fun d acc => d + base * acc) 0

/-- Big-endian accumulation, as the decoding loops of mr-tron/base58 compute it. -/
def fromDigitsBE (base : Nat) (ds : List Nat) : Nat :=
  ds.foldl (fun acc d => acc * base + d) 0

/-- Little-endian digits of `n` in the given base, with explicit fuel. -/
def digitsLE (base fuel n : Nat) : List Nat :=
  match fuel with
  | 0 => []
  | fuel' + 1 => if n = 0 then [] else n % base :: digitsLE base fuel' (n / base)

/-! ### base58btc (mr-tron/base58, as used by go-multibase)

`b58Encode` embeds `FastBase58Encoding`: each leading zero byte becomes the
alphabet's zero character `'1'`, and the remaining bytes are read as one
big-endian number and written in base 58, most significant digit first.
`b58Decode` embeds `FastBase58Decoding`: it rejects the empty string, folds
every character's alphabet value into a big-endian accumulator (failing on a
character outside the alphabet), and emits one zero byte per leading `'1'`
followed by the big-endian base-256 bytes of the accumulated number.
The `digitsLE` fuel arguments bound the digit counts: a value below
`256 ^ len` has at most `2 * len` base-58 digits, and a value below
`58 ^ len` has at most `len` base-256 digits. -/

def b58Alphabet : List Char :=
  ['1', '2', '3', '4', '5', '6', '7', '8', '9',
   'A', 'B', 'C', 'D', 'E', 'F', 'G', 'H', 'J', 'K', 'L', 'M', 'N',
   'P', 'Q', 'R', 'S', 'T', 'U', 'V', 'W', 'X', 'Y', 'Z',
   'a', 'b', 'c', 'd', 'e', 'f', 'g', 'h', 'i', 'j', 'k',
   'm', 'n', 'o', 'p', 'q', 'r', 's', 't', 'u', 'v', 'w', 'x', 'y', 'z']

def b58Char (d : Nat) : Char := b58Alphabet.getD d '1'

def b58Val (c : Char) : Option Nat := b58Alphabet.findIdx? (fun x => x == c)

def b58Encode (bs : List Nat) : List Char :=
  let zeros := bs.takeWhile (fun b => b = 0)
  let rest := bs.dropWhile (fun b => b = 0)
  zeros.map (fun _ => '1')
    ++ (digitsLE 58 (2 * bs.length) (fromDigitsBE 256 rest)).reverse.map b58Char

def b58DecodeNum : List Char → Nat → Option Nat
  | [], n => some n
  | c :: rest, n =>
    match b58Val c with
    | none => none
    | some v => b58DecodeNum rest (n * 58 + v)

def b58Decode (s : List Char) : Option (List Nat) :=
  if s.isEmpty then none
  else
    (b58DecodeNum s 0).map (fun n =>
      (s.takeWhile (fun c => c = '1')).map (fun _ => 0)
        ++ (digitsLE 256 s.length n).reverse)

/-! ### base64url (encoding/base64 RawURLEncoding, reached through the
multibase `'u'` marker; needed because `ParseKeyURI` accepts any multibase
string before checking which base it used) -/

def b64Val (c : Char) : Option Nat :=
  if 'A' ≤ c ∧ c ≤ 'Z' then some (c.toNat - 65)
  else if 'a' ≤ c ∧ c ≤ 'z' then some (c.toNat - 97 + 26)
  else if '0' ≤ c ∧ c ≤ '9' then some (c.toNat - 48 + 52)
  else if c = '-' then some 62
  else if c = '_' then some 63
  else none

def b64Quantum : List Nat → Option (List Nat)
  | [] => some []
  | [_] => none
  | [a, b] => some [a * 4 + b / 16]
  | [a, b, c] => some [a * 4 + b / 16, b % 16 * 16 + c / 4]
  | a :: b :: c :: d :: rest =>
    (b64Quantum rest).map
      (fun t => (a * 4 + b / 16) :: (b % 16 * 16 + c / 4) :: (c % 4 * 64 + d) :: t)

def b64uDecode (s : List Char) : Option (List Nat) :=
  (s.mapM b64Val).bind b64Quantum

/-! ### go-multibase boundary

`mbEncode58` is `multibase.Encode(multibase.Base58BTC, data)`: the `'z'`
marker (the value of the `Base58BTC` constant) followed by the base-58 text;
for this known encoding the Go function cannot return an error. `mbDecode`
models `multibase.Decode` at the interface boundary for the encodings
exercised by this repository: the `'z'` and `'u'` markers dispatch to their
decoders and any other leading character is a decode error (as go-multibase
reports for an unknown marker such as `'d'`). -/

def mbEncode58 (bs : List Nat) : List Char := 'z' :: b58Encode bs

def mbDecode (s : List Char) : Option (Char × List Nat) :=
  match s with
  | [] => none
  | c :: rest =>
    if c = 'z' then (b58Decode rest).map (fun bs => ('z', bs))
    else if c = 'u' then (b64uDecode rest).map (fun bs => ('u', bs))
    else none

/-! ### multiformats/go-varint

`fromUvarint` embeds `varint.FromUvarint`: a base-128 little-endian varint
with continuation bit, rejecting truncation (`ErrUnderflow`), more than nine
bytes or a ninth byte with the continuation bit (`ErrOverflow`), and padded
encodings (`ErrNotMinimal`). In the Go loop `x |= uint64(b&0x7f) << s` the
bits already in `x` lie below `s`, so the bitwise or is plain addition of
`(b % 128) * 2 ^ s`. `putUvarint` embeds `varint.PutUvarint` (with
`UvarintSize` sizing the buffer); ten bytes of fuel cover every 64-bit
value. -/

inductive VarintErr where
  | underflow
  | overflow
  | notMinimal
deriving DecidableEq, Repr

def fromUvarintAux : List Nat → Nat → Nat → Nat → Except VarintErr (Nat × Nat)
  | [], _, _, _ => .error .underflow
  | b :: rest, i, s, x =>
    if (i = 8 ∧ 0x80 ≤ b) ∨ 9 ≤ i then .error .overflow
    else if b < 0x80 then
      if b = 0 ∧ 0 < s then .error .notMinimal
      else .ok (x + b * 2 ^ s, i + 1)
    else fromUvarintAux rest (i + 1) (s + 7) (x + b % 0x80 * 2 ^ s)

def fromUvarint (buf : List Nat) : Except VarintErr (Nat × Nat) :=
  fromUvarintAux buf 0 0 0

def putUvarintFuel : Nat → Nat → List Nat
  | 0, _ => []
  | fuel + 1, t =>
    if t < 0x80 then [t] else (t % 0x80 + 0x80) :: putUvarintFuel fuel (t / 0x80)

def putUvarint (t : Nat) : List Nat := putUvarintFuel 10 t

/-! ### Key capability boundary

The repository consumes keys through the external `crypto`/libp2p interface:
a type tag, a raw-bytes accessor that can fail, and verify/sign operations.
`PubKey` models exactly that boundary (spec sections 1 and 6): `ktype` is the
result of `Type()` (with `.Other` covering every tag outside the three the
codec supports, like the `0xaa` bogus key in the repository's tests), and
`Raw()` returns `rawBytes` unless `rawErr` is set, modelling keys whose
raw-bytes accessor fails. The unmarshal routines model the external
`UnmarshalEd25519PublicKey` / `UnmarshalSecp256k1PublicKey` /
`UnmarshalEthPublicKey` at the same boundary: they accept the fixed-size raw
serializations the corresponding `Raw()` produces (32 bytes for Ed25519, 33
compressed bytes for the secp256k1 curves) and return a key with those raw
bytes; curve-point validation lives outside the repository and is abstracted
into the size check. -/

inductive KeyType where
  | Ed25519
  | Secp256k1
  | Eth
  | Other (code : Nat)
deriving DecidableEq, Repr

structure PubKey where
  ktype : KeyType
  rawBytes : List Nat
  rawErr : Bool := false
deriving DecidableEq, Repr

/-- Model of `pubk.Raw()`: the raw bytes, or an error. -/
def PubKey.Raw (k : PubKey) : Option (List Nat) :=
  if k.rawErr then none else some k.rawBytes

def unmarshalEd25519PublicKey (data : List Nat) : Except Unit PubKey :=
  if data.length = 32 then .ok { ktype := .Ed25519, rawBytes := data } else .error ()

def unmarshalSecp256k1PublicKey (data : List Nat) : Except Unit PubKey :=
  if data.length = 33 then .ok { ktype := .Secp256k1, rawBytes := data } else .error ()

def unmarshalEthPublicKey (data : List Nat) : Except Unit PubKey :=
  if data.length = 33 then .ok { ktype := .Eth, rawBytes := data } else .error ()

/-! ### The key codec (key.go: FormatKeyURI / ParseKeyURI) -/

def multicodecKindEd25519PubKey : Nat := 0xed
def multicodecKindSecp256k1PubKey : Nat := 0xe7
def multicodecKindEthPubKey : Nat := 0xef01

/-- The `keyPrefix` constant `"did:key"` (note: no trailing colon). -/
def keyPrefixStr : List Char := ['d', 'i', 'd', ':', 'k', 'e', 'y']

/-- Model of `strings.TrimPrefix`: drop `p` from the front of `s` when present,
otherwise return `s` unchanged. -/
def trimPfx (s p : List Char) : List Char :=
  if p.isPrefixOf s then s.drop p.length else s

/-- Embedding of `FormatKeyURI` (src/unnamed/part_002 lines 141-172): obtain the raw key
bytes (empty string on failure), pick the multicodec tag by key type (empty
string for an unsupported type, after logging), prepend the varint-encoded
tag, multibase-encode with Base58BTC, and prepend `"did:key:"`. -/
def FormatKeyURI (pubk : PubKey) : List Char :=
  match pubk.Raw with
  | none => []
  | some raw =>
    match pubk.ktype with
    | .Ed25519 =>
      keyPrefixStr ++ ':' :: mbEncode58 (putUvarint multicodecKindEd25519PubKey ++ raw)
    | .Secp256k1 =>
      keyPrefixStr ++ ':' :: mbEncode58 (putUvarint multicodecKindSecp256k1PubKey ++ raw)
    | .Eth =>
      keyPrefixStr ++ ':' :: mbEncode58 (putUvarint multicodecKindEthPubKey ++ raw)
    | .Other _ => []

inductive ParseKeyErr where
  | notKeyDID
  | decodingMultibase
  | unexpectedEncoding
  | varint (e : VarintErr)
  | invalidKeyType
  | unmarshalFailed
deriving DecidableEq, Repr

instance {ε α : Type} [DecidableEq ε] [DecidableEq α] : DecidableEq (Except ε α)
  | .error e, .error f =>
    if h : e = f then .isTrue (by rw [h]) else .isFalse (by intro hh; cases hh; exact h rfl)
  | .error _, .ok _ => .isFalse (by intro hh; cases hh)
  | .ok _, .error _ => .isFalse (by intro hh; cases hh)
  | .ok a, .ok b =>
    if h : a = b then .isTrue (by rw [h]) else .isFalse (by intro hh; cases hh; exact h rfl)

/-- The varint-then-dispatch part of `ParseKeyURI` (lines 190-207): parse the
leading varint tag (propagating its error) and dispatch on the tag to one of
the three key-unmarshal routines; any other tag is `ErrInvalidKeyType`. -/
def parseKeyData (data : List Nat) : Except ParseKeyErr PubKey :=
  match fromUvarint data with
  | .error e => .error (.varint e)
  | .ok (keyType, n) =>
    if keyType = multicodecKindEd25519PubKey then
      (unmarshalEd25519PublicKey (data.drop n)).mapError fun _ => .unmarshalFailed
    else if keyType = multicodecKindSecp256k1PubKey then
      (unmarshalSecp256k1PublicKey (data.drop n)).mapError fun _ => .unmarshalFailed
    else if keyType = multicodecKindEthPubKey then
      (unmarshalEthPublicKey (data.drop n)).mapError fun _ => .unmarshalFailed
    else .error .invalidKeyType

/-- The multibase part of `ParseKeyURI` (lines 181-188): propagate a
multibase decode failure, reject any encoding other than Base58BTC
(`'z'`), then continue with the decoded payload. -/
def parsePayload (p : Option (Char × List Nat)) : Except ParseKeyErr PubKey :=
  match p with
  | none => .error .decodingMultibase
  | some (enc, data) =>
    if enc ≠ 'z' then .error .unexpectedEncoding
    else parseKeyData data

/-- Embedding of `ParseKeyURI` (src/unnamed/part_002 lines 174-208): reject URIs without
the `"did:key"` prefix (note: the trailing colon is not part of the checked
prefix), trim `"did:key:"`, multibase-decode, insist on the Base58BTC
encoding, parse the leading varint tag, and dispatch on the tag to one of
the three key-unmarshal routines (`ErrInvalidKeyType` otherwise). -/
def ParseKeyURI (uri : List Char) : Except ParseKeyErr PubKey :=
  if keyPrefixStr.isPrefixOf uri = false then .error .notKeyDID
  else parsePayload (mbDecode (trimPfx uri (keyPrefixStr ++ [':'])))

/-! ### DID values (did.go) -/

structure DID where
  URI : List Char
deriving DecidableEq, Repr

inductive DIDErr where
  | invalidDID
deriving DecidableEq, Repr

/-- Model of `strings.Split` with the single-character separator `":"`. -/
def stringsSplitCh (sep : Char) : List Char → List (List Char)
  | [] => [[]]
  | c :: rest =>
    if c = sep then [] :: stringsSplitCh sep rest
    else
      match stringsSplitCh sep rest with
      | [] => [[c]]
      | h :: t => (c :: h) :: t

def DID.Equal (d other : DID) : Bool := d.URI == other.URI

def DID.Empty (d : DID) : Bool := d.URI == []

/-- Embedding of `Method()`: the second of exactly three colon-separated segments, or `""`. -/
def DID.Method (d : DID) : List Char :=
  if (stringsSplitCh ':' d.URI).length = 3 then (stringsSplitCh ':' d.URI).getD 1 []
  else []

/-- Embedding of `Identifier()`: the third of exactly three colon-separated segments, or `""`. -/
def DID.Identifier (d : DID) : List Char :=
  if (stringsSplitCh ':' d.URI).length = 3 then (stringsSplitCh ':' d.URI).getD 2 []
  else []

/-- Embedding of `FromString` (src/ledger.go lines 221-240, the current `did.go` of the
repository; the variant matching `did_test.go`): the empty string yields the
zero DID; otherwise the string must split on `":"` into exactly three
segments, none empty, and is stored verbatim. -/
def FromString (s : List Char) : Except DIDErr DID :=
  if s ≠ [] then
    if (stringsSplitCh ':' s).length ≠ 3 then .error .invalidDID
    else if (stringsSplitCh ':' s).any (fun p => p.isEmpty) then .error .invalidDID
    else .ok ⟨s⟩
  else .ok ⟨s⟩

/-- Embedding of `FromPublicKey` (src/unnamed/part_002 lines 102-105): store
`FormatKeyURI`'s result verbatim as the URI, with no error channel. -/
def FromPublicKey (pubk : PubKey) : DID :=
  ⟨FormatKeyURI pubk⟩

/-! ### Anchors, providers, resolver (src/unnamed/part_002, anchor.go) -/

/-- Embedding of `PublicKeyAnchor`, the `Anchor` implementation in scope. -/
structure Anchor where
  did : DID
  pubk : PubKey
deriving DecidableEq, Repr

structure PrivKey where
  pub : PubKey
deriving DecidableEq, Repr

/-- Embedding of `PrivateKeyProvider`, the in-process `Provider` implementation. -/
structure Provider where
  did : DID
  privk : PrivKey
deriving DecidableEq, Repr

def NewAnchor (did : DID) (pubk : PubKey) : Anchor := ⟨did, pubk⟩

def Anchor.DID (a : Anchor) : DID := a.did

inductive ResolveErr where
  | noAnchorMethod
  | invalidDID
  | parseKey (e : ParseKeyErr)
deriving DecidableEq, Repr

/-- Embedding of `PublicKeyFromDID` (part_002 lines 107-118): require method `"key"`,
then parse the URI (wrapping any parse error). -/
def PublicKeyFromDID (d : DID) : Except ResolveErr PubKey :=
  if d.Method ≠ ['k', 'e', 'y'] then .error .invalidDID
  else (ParseKeyURI d.URI).mapError fun e => .parseKey e

/-- Embedding of `makeKeyAnchor` (anchor.go lines 22-29). -/
def makeKeyAnchor (d : DID) : Except ResolveErr Anchor :=
  (PublicKeyFromDID d).map fun pubk => NewAnchor d pubk

/-- Embedding of `GetAnchorForDID` (anchor.go lines 13-20): dispatch on `did.Method()`
through the `anchorMethods` registry, whose only registered entry maps
`"key"` to `makeKeyAnchor`; any other method is `ErrNoAnchorMethod`. -/
def GetAnchorForDID (d : DID) : Except ResolveErr Anchor :=
  if d.Method = ['k', 'e', 'y'] then makeKeyAnchor d else .error .noAnchorMethod

/-! ### Trust context (did.go lines 86-266)

The Go maps are modelled as association lists with Go map semantics
(`insertEntry` overwrites in place, `lookupEntry` finds the unique entry);
`time.Now()` is modelled by an explicit `now : Nat` argument, and
`anchorEntryTTL` is `time.Hour` in nanoseconds. The mutex serializes every
operation, so each public operation is one atomic state transformation. -/

def anchorEntryTTL : Nat := 3600000000000

structure AnchorEntry where
  anchor : Anchor
  expire : Nat
deriving DecidableEq, Repr

structure BasicTrustContext where
  anchors : List (DID × AnchorEntry)
  providers : List (DID × Provider)
deriving DecidableEq, Repr

def lookupEntry {α : Type} : List (DID × α) → DID → Option α
  | [], _ => none
  | (k, v) :: rest, d => if k = d then some v else lookupEntry rest d

def insertEntry {α : Type} : List (DID × α) → DID → α → List (DID × α)
  | [], d, v => [(d, v)]
  | (k, w) :: rest, d, v =>
    if k = d then (d, v) :: rest else (k, w) :: insertEntry rest d v

/-- Embedding of `getAnchor` (did.go lines 178-189): under the lock, a present entry
(expired or not) has its `expire` refreshed to `now + anchorEntryTTL` and
its anchor returned; otherwise the state is unchanged. -/
def BasicTrustContext.getAnchorLocked (ctx : BasicTrustContext) (now : Nat) (d : DID) :
    BasicTrustContext × Option Anchor :=
  match lookupEntry ctx.anchors d with
  | some entry =>
    ({ ctx with
        anchors := insertEntry ctx.anchors d
          { anchor := entry.anchor, expire := now + anchorEntryTTL } },
     some entry.anchor)
  | none => (ctx, none)

/-- Embedding of `AddAnchor` (did.go lines 203-211): unconditional upsert keyed by the
anchor's own DID, with `expire = now + anchorEntryTTL`. -/
def BasicTrustContext.AddAnchor (ctx : BasicTrustContext) (now : Nat) (anchor : Anchor) :
    BasicTrustContext :=
  { ctx with
      anchors := insertEntry ctx.anchors anchor.did
        { anchor := anchor, expire := now + anchorEntryTTL } }

inductive GetAnchorErr where
  | wrapped (e : ResolveErr)
deriving DecidableEq, Repr

/-- Embedding of `GetAnchor` (did.go lines 163-176), parametrized by the resolver so that
"the resolver is not invoked on a cache hit" is expressible: the function the
code calls is `GetAnchorForDID` (the `anchorMethods` registry). On a miss the
resolver's error is wrapped (`fmt.Errorf("get anchor for did: %w", ...)`) and
the state left unchanged; on success the anchor is added via `AddAnchor`. -/
def BasicTrustContext.GetAnchorWith (resolve : DID → Except ResolveErr Anchor)
    (ctx : BasicTrustContext) (now : Nat) (d : DID) :
    BasicTrustContext × Except GetAnchorErr Anchor :=
  match ctx.getAnchorLocked now d with
  | (ctx2, some anchor) => (ctx2, .ok anchor)
  | (_, none) =>
    match resolve d with
    | .error e => (ctx, .error (.wrapped e))
    | .ok anchor => (ctx.AddAnchor now anchor, .ok anchor)

def BasicTrustContext.GetAnchor (ctx : BasicTrustContext) (now : Nat) (d : DID) :
    BasicTrustContext × Except GetAnchorErr Anchor :=
  ctx.GetAnchorWith GetAnchorForDID now d

/-- Embedding of `gcAnchorEntries` (did.go lines 256-266): under the lock, delete every
anchor entry whose `expire` is strictly before `now`; providers untouched. -/
def BasicTrustContext.gcAnchorEntries (ctx : BasicTrustContext) (now : Nat) :
    BasicTrustContext :=
  { ctx with anchors := ctx.anchors.filter fun p => ! decide (p.2.expire < now) }

/-- Length of the raw serialization each key-unmarshal routine accepts:
32 bytes for Ed25519, 33 compressed bytes for the secp256k1 curves. -/
def keyRawLen : KeyType → Nat
  | .Ed25519 => 32
  | .Secp256k1 => 33
  | .Eth => 33
  | .Other _ => 0

/-! ### Concrete fixtures used by the witness theorems -/

def pubkEx : PubKey := { ktype := .Ed25519, rawBytes := List.replicate 32 1 }

def didEx : DID := ⟨['x']⟩

def anchorEx : Anchor := ⟨didEx, pubkEx⟩

def entryEx : AnchorEntry := ⟨anchorEx, 0⟩

def ctxEx : BasicTrustContext := ⟨[(didEx, entryEx)], []⟩

/-! ### Digit representation lemmas -/

theorem digitsLE_of_zero (base fuel : Nat) : digitsLE base fuel 0 = [] := by
  cases fuel <;> simp [digitsLE]

theorem fromDigitsLE_nil (base : Nat) : fromDigitsLE base [] = 0 := rfl

theorem fromDigitsLE_cons (base d : Nat) (ds : List Nat) :
    fromDigitsLE base (d :: ds) = d + base * fromDigitsLE base ds := rfl

theorem fromDigitsLE_digitsLE (base : Nat) (hb : 2 ≤ base) :
    ∀ fuel n, n < base ^ fuel → fromDigitsLE base (digitsLE base fuel n) = n := by
  intro fuel
  induction fuel with
  | zero =>
    intro n hn
    simp at hn
    simp [hn, digitsLE, fromDigitsLE]
  | succ f ih =>
    intro n hn
    by_cases h0 : n = 0
    · simp [h0, digitsLE, fromDigitsLE]
    · have hdiv : n / base < base ^ f := by
        have hb0 : 0 < base := by omega
        rw [Nat.div_lt_iff_lt_mul hb0]
        calc n < base ^ (f + 1) := hn
        _ = base ^ f * base := by rw [Nat.pow_succ]
      simp only [digitsLE, h0, if_false, fromDigitsLE_cons]
      rw [ih (n / base) hdiv]
      exact Nat.mod_add_div n base

theorem digitsLE_lt (base : Nat) (hb : 0 < base) :
    ∀ fuel n d, d ∈ digitsLE base fuel n → d < base := by
  intro fuel
  induction fuel with
  | zero => intro n d hd; simp [digitsLE] at hd
  | succ f ih =>
    intro n d hd
    by_cases h0 : n = 0
    · simp [h0, digitsLE] at hd
    · simp only [digitsLE, h0, if_false, List.mem_cons] at hd
      rcases hd with h | h
      · subst h; exact Nat.mod_lt _ hb
      · exact ih _ _ h

/-- The most significant digit of a nonzero number is nonzero. -/
theorem digitsLE_last_ne_zero (base : Nat) (hb : 2 ≤ base) :
    ∀ fuel n, n ≠ 0 → n < base ^ fuel →
      ∃ ds d, digitsLE base fuel n = ds ++ [d] ∧ d ≠ 0 := by
  intro fuel
  induction fuel with
  | zero =>
    intro n h0 hn
    simp at hn
    omega
  | succ f ih =>
    intro n h0 hn
    simp only [digitsLE, h0, if_false]
    by_cases hq : n / base = 0
    · refine ⟨[], n % base, by simp [hq, digitsLE_of_zero], ?_⟩
      have : n % base = n := Nat.mod_eq_of_lt (by
        rcases Nat.lt_or_ge n base with h | h
        · exact h
        · exact absurd (Nat.div_eq_of_lt · ▸ hq) (by
            intro
            have := Nat.div_le_div_right (c := base) h
            have hbase : 0 < base := by omega
            have := Nat.le_div_iff_mul_le hbase |>.mpr (by omega : 1 * base ≤ n)
            omega))
      omega
    · have hdiv : n / base < base ^ f := by
        have hb0 : 0 < base := by omega
        rw [Nat.div_lt_iff_lt_mul hb0]
        calc n < base ^ (f + 1) := hn
        _ = base ^ f * base := by rw [Nat.pow_succ]
      obtain ⟨ds, d, heq, hd⟩ := ih (n / base) hq hdiv
      exact ⟨n % base :: ds, d, by rw [heq]; simp, hd⟩

theorem fromDigitsLE_lt (base : Nat) (hb : 1 ≤ base) :
    ∀ ds : List Nat, (∀ d ∈ ds, d < base) → fromDigitsLE base ds < base ^ ds.length := by
  intro ds
  induction ds with
  | nil => intro _; simp [fromDigitsLE]
  | cons d t ih =>
    intro h
    have hd : d < base := h d (List.mem_cons_self _ _)
    have ht := ih (fun x hx => h x (List.mem_cons_of_mem _ hx))
    simp only [fromDigitsLE_cons, List.length_cons, Nat.pow_succ]
    calc d + base * fromDigitsLE base t
        < base + base * fromDigitsLE base t := by omega
    _ = base * (fromDigitsLE base t + 1) := by ring
    _ ≤ base * base ^ t.length := by
        have : fromDigitsLE base t + 1 ≤ base ^ t.length := ht
        exact Nat.mul_le_mul_left _ this
    _ = base ^ t.length * base := by ring

/-- A digit list ending in a nonzero digit has a nonzero value. -/
theorem fromDigitsLE_ne_zero (base : Nat) (hb : 1 ≤ base) :
    ∀ ds : List Nat, ds.getLast? ≠ some 0 → ds ≠ [] → fromDigitsLE base ds ≠ 0 := by
  intro ds
  induction ds with
  | nil => intro _ h; exact absurd rfl h
  | cons d t ih =>
    intro hlast _
    cases t with
    | nil =>
      simp only [List.getLast?_singleton] at hlast
      simp only [fromDigitsLE_cons, fromDigitsLE_nil, Nat.mul_zero, Nat.add_zero]
      intro h
      exact hlast (by rw [h])
    | cons e t' =>
      have : (e :: t').getLast? ≠ some 0 := by
        rwa [List.getLast?_cons_cons] at hlast
      have hne := ih this (by simp)
      rw [fromDigitsLE_cons]
      intro h
      have h2 : base * fromDigitsLE base (e :: t') = 0 := by omega
      rcases Nat.mul_eq_zero.mp h2 with h3 | h3
      · omega
      · exact hne h3

/-- Uniqueness of the digit representation: converting the value of a digit
list (with most-significant digit nonzero) back to digits recovers the list. -/
theorem digitsLE_fromDigitsLE (base : Nat) (hb : 2 ≤ base) :
    ∀ ds : List Nat, (∀ d ∈ ds, d < base) → ds.getLast? ≠ some 0 →
      ∀ fuel, ds.length ≤ fuel → digitsLE base fuel (fromDigitsLE base ds) = ds := by
  intro ds
  induction ds with
  | nil => intro _ _ fuel _; simp [fromDigitsLE, digitsLE_of_zero]
  | cons d t ih =>
    intro hlt hlast fuel hfuel
    obtain ⟨f, rfl⟩ : ∃ f, fuel = f + 1 := by
      cases fuel with
      | zero => simp at hfuel
      | succ f => exact ⟨f, rfl⟩
    have hd : d < base := hlt d (List.mem_cons_self _ _)
    have hn : fromDigitsLE base (d :: t) = d + base * fromDigitsLE base t :=
      fromDigitsLE_cons base d t
    cases t with
    | nil =>
      simp only [List.getLast?_singleton] at hlast
      have hd0 : d ≠ 0 := by intro h; exact hlast (by rw [h])
      have : fromDigitsLE base [d] = d := by simp [fromDigitsLE]
      rw [this]
      simp only [digitsLE, hd0, if_false]
      rw [Nat.mod_eq_of_lt hd, Nat.div_eq_of_lt hd, digitsLE_of_zero]
    | cons e t' =>
      have hlast' : (e :: t').getLast? ≠ some 0 := by
        rwa [List.getLast?_cons_cons] at hlast
      have hNne : fromDigitsLE base (e :: t') ≠ 0 :=
        fromDigitsLE_ne_zero base (by omega) _ hlast' (by simp)
      have hne : fromDigitsLE base (d :: e :: t') ≠ 0 := by
        rw [hn]
        intro h
        have h2 : base * fromDigitsLE base (e :: t') = 0 := by omega
        rcases Nat.mul_eq_zero.mp h2 with h3 | h3
        · omega
        · exact hNne h3
      simp only [digitsLE, hne, if_false]
      rw [hn]
      have hmod : (d + base * fromDigitsLE base (e :: t')) % base = d := by
        rw [Nat.add_mul_mod_self_left, Nat.mod_eq_of_lt hd]
      have hdiv : (d + base * fromDigitsLE base (e :: t')) / base
          = fromDigitsLE base (e :: t') := by
        rw [Nat.add_mul_div_left _ _ (by omega : 0 < base), Nat.div_eq_of_lt hd]
        omega
      rw [hmod, hdiv]
      have hlen : (e :: t').length ≤ f := by
        simp only [List.length_cons] at hfuel ⊢
        omega
      have := ih (fun x hx => hlt x (List.mem_cons_of_mem _ hx)) hlast' f hlen
      rw [this]

theorem fromDigitsLE_append_singleton (base : Nat) :
    ∀ (xs : List Nat) (d : Nat),
      fromDigitsLE base (xs ++ [d]) = fromDigitsLE base xs + d * base ^ xs.length := by
  intro xs
  induction xs with
  | nil => intro d; simp [fromDigitsLE]
  | cons x t ih =>
    intro d
    simp only [List.cons_append, fromDigitsLE_cons, ih, List.length_cons, Nat.pow_succ]
    ring

theorem foldl_eq_fromDigitsLE (base : Nat) :
    ∀ (l : List Nat) (a : Nat),
      l.foldl (fun acc d => acc * base + d) a
        = a * base ^ l.length + fromDigitsLE base l.reverse := by
  intro l
  induction l with
  | nil => intro a; simp [fromDigitsLE]
  | cons d t ih =>
    intro a
    simp only [List.foldl_cons, ih, List.reverse_cons, fromDigitsLE_append_singleton,
      List.length_reverse, List.length_cons, Nat.pow_succ]
    ring

theorem fromDigitsBE_eq (base : Nat) (l : List Nat) :
    fromDigitsBE base l = fromDigitsLE base l.reverse := by
  unfold fromDigitsBE
  rw [foldl_eq_fromDigitsLE]
  simp

/-! ### List helper lemmas for the round trip -/

theorem map_const_eq_replicate {α β : Type} (c : β) :
    ∀ l : List α, l.map (fun _ => c) = List.replicate l.length c := by
  intro l
  induction l with
  | nil => rfl
  | cons x t ih => simp [List.replicate, ih]

theorem takeWhile_append_all {α : Type} (p : α → Bool) :
    ∀ xs ys : List α, (∀ x ∈ xs, p x = true) →
      (xs ++ ys).takeWhile p = xs ++ ys.takeWhile p := by
  intro xs
  induction xs with
  | nil => simp
  | cons x t ih =>
    intro ys h
    have hx : p x = true := h x (List.mem_cons_self _ _)
    simp only [List.cons_append, List.takeWhile_cons, hx, if_true]
    rw [ih ys (fun y hy => h y (List.mem_cons_of_mem _ hy))]

theorem takeWhile_eq_nil_of_head {α : Type} (p : α → Bool) :
    ∀ ys : List α, (∀ y, ys.head? = some y → p y = false) →
      ys.takeWhile p = [] := by
  intro ys h
  cases ys with
  | nil => rfl
  | cons y t =>
    have := h y rfl
    simp [List.takeWhile_cons, this]

theorem head_dropWhile_false {α : Type} (p : α → Bool) :
    ∀ l : List α, ∀ y, (l.dropWhile p).head? = some y → p y = false := by
  intro l
  induction l with
  | nil => intro y hy; simp [List.dropWhile] at hy
  | cons x t ih =>
    intro y
    by_cases hx : p x = true
    · rw [List.dropWhile_cons_of_pos hx]
      exact ih y
    · rw [List.dropWhile_cons_of_neg hx]
      intro hy
      simp only [List.head?_cons, Option.some.injEq] at hy
      subst hy
      simpa using hx

theorem b58DecodeNum_append_ones :
    ∀ (k : Nat) (s : List Char),
      b58DecodeNum (List.replicate k '1' ++ s) 0 = b58DecodeNum s 0 := by
  intro k
  induction k with
  | zero => intro s; rfl
  | succ k ih =>
    intro s
    have h1 : b58Val '1' = some 0 := by decide
    simp only [List.replicate, List.cons_append, b58DecodeNum, h1]
    exact ih s

theorem b58Val_b58Char : ∀ d, d < 58 → b58Val (b58Char d) = some d := by decide

theorem b58Char_ne_one : ∀ d, d < 58 → d ≠ 0 → (b58Char d = '1') = False := by decide

theorem b58DecodeNum_map :
    ∀ ds : List Nat, (∀ d ∈ ds, d < 58) → ∀ a,
      b58DecodeNum (ds.map b58Char) a
        = some (ds.foldl (fun n d => n * 58 + d) a) := by
  intro ds
  induction ds with
  | nil => intro _ a; rfl
  | cons d t ih =>
    intro h a
    have hd : d < 58 := h d (List.mem_cons_self _ _)
    simp only [List.map_cons, b58DecodeNum, b58Val_b58Char d hd, List.foldl_cons]
    exact ih (fun x hx => h x (List.mem_cons_of_mem _ hx)) _

/-- Core of the round trip: decoding the text that `b58Encode` builds out of
`k` leading-zero markers and the base-58 digit characters of a nonzero value
recovers the zero bytes and the canonical base-256 bytes of that value. -/
theorem b58Decode_encoded (k : Nat) (rest : List Nat) (F : Nat)
    (hmem : ∀ x ∈ rest, x < 256)
    (hhd : rest.head? ≠ some 0) (hne : rest ≠ [])
    (hFlt : fromDigitsBE 256 rest < 58 ^ F) :
    b58Decode (List.replicate k '1'
        ++ (digitsLE 58 F (fromDigitsBE 256 rest)).reverse.map b58Char)
      = some (List.replicate k 0 ++ rest) := by
  obtain ⟨r, rest', hrestc⟩ : ∃ r rest', rest = r :: rest' := by
    cases rest with
    | nil => exact absurd rfl hne
    | cons r rest' => exact ⟨r, rest', rfl⟩
  have hr0 : r ≠ 0 := by
    intro h
    exact hhd (by rw [hrestc, h]; rfl)
  have hrev_last : rest.reverse.getLast? = some r := by
    rw [List.getLast?_eq_head?_reverse, List.reverse_reverse, hrestc]; rfl
  have hrev_last' : rest.reverse.getLast? ≠ some 0 := by
    rw [hrev_last]
    intro h
    exact hr0 (by simpa using h)
  have hrev_mem : ∀ x ∈ rest.reverse, x < 256 := fun x hx =>
    hmem x (List.mem_reverse.mp hx)
  have hn_eq : fromDigitsBE 256 rest = fromDigitsLE 256 rest.reverse :=
    fromDigitsBE_eq 256 rest
  have hn0 : fromDigitsBE 256 rest ≠ 0 := by
    rw [hn_eq]
    exact fromDigitsLE_ne_zero 256 (by norm_num) rest.reverse hrev_last'
      (by rw [hrestc]; simp)
  have hdig_val : fromDigitsLE 58 (digitsLE 58 F (fromDigitsBE 256 rest))
      = fromDigitsBE 256 rest :=
    fromDigitsLE_digitsLE 58 (by norm_num) F _ hFlt
  have hdig_lt : ∀ d ∈ digitsLE 58 F (fromDigitsBE 256 rest), d < 58 := fun d hd =>
    digitsLE_lt 58 (by norm_num) F _ d hd
  obtain ⟨ds, d, hds, hd0⟩ :=
    digitsLE_last_ne_zero 58 (by norm_num) F (fromDigitsBE 256 rest) hn0 hFlt
  have hd58 : d < 58 := hdig_lt d (by rw [hds]; simp)
  have hdrev : (digitsLE 58 F (fromDigitsBE 256 rest)).reverse = d :: ds.reverse := by
    rw [hds, List.reverse_append]; rfl
  rw [hdrev, List.map_cons]
  have hSne : (List.replicate k '1' ++ b58Char d :: ds.reverse.map b58Char).isEmpty
      = false := by
    cases h : List.replicate k '1' ++ b58Char d :: ds.reverse.map b58Char with
    | nil => exact absurd h (List.append_ne_nil_of_right_ne_nil _ (by simp))
    | cons a t => rfl
  rw [b58Decode, hSne]
  simp only [Bool.false_eq_true, if_false]
  have hdecnum : b58DecodeNum
      (List.replicate k '1' ++ b58Char d :: ds.reverse.map b58Char) 0
      = some (fromDigitsBE 256 rest) := by
    have hmem58 : ∀ x ∈ d :: ds.reverse, x < 58 := by
      intro x hx
      apply hdig_lt
      rw [← hdrev] at hx
      exact List.mem_reverse.mp hx
    rw [show (b58Char d :: ds.reverse.map b58Char) = (d :: ds.reverse).map b58Char from rfl]
    rw [b58DecodeNum_append_ones, b58DecodeNum_map _ hmem58 0]
    congr 1
    have h1 : (d :: ds.reverse).foldl (fun n d => n * 58 + d) 0
        = fromDigitsBE 58 (d :: ds.reverse) := rfl
    rw [h1, ← hdrev, fromDigitsBE_eq, List.reverse_reverse, hdig_val]
  rw [hdecnum, Option.map_some']
  have htw : (List.replicate k '1' ++ b58Char d :: ds.reverse.map b58Char).takeWhile
      (fun c => c = '1') = List.replicate k '1' := by
    rw [takeWhile_append_all _ _ _ (by intro x hx; simp [List.eq_of_mem_replicate hx])]
    rw [takeWhile_eq_nil_of_head _ _ (by
      intro y hy
      simp only [List.head?_cons, Option.some.injEq] at hy
      subst hy
      simpa using b58Char_ne_one d hd58 hd0), List.append_nil]
  rw [htw]
  have hlen_digits : rest.length ≤ (digitsLE 58 F (fromDigitsBE 256 rest)).length := by
    have hlow : 256 ^ rest'.length ≤ fromDigitsBE 256 rest := by
      rw [hn_eq, hrestc]
      have h2 : (r :: rest').reverse = rest'.reverse ++ [r] := by simp
      rw [h2, fromDigitsLE_append_singleton, List.length_reverse]
      have h3 : 1 * 256 ^ rest'.length ≤ r * 256 ^ rest'.length :=
        Nat.mul_le_mul_right _ (by omega)
      omega
    have hhigh : fromDigitsBE 256 rest
        < 58 ^ (digitsLE 58 F (fromDigitsBE 256 rest)).length := by
      conv_lhs => rw [← hdig_val]
      exact fromDigitsLE_lt 58 (by norm_num) _ hdig_lt
    have hhigh' : fromDigitsBE 256 rest
        < 256 ^ (digitsLE 58 F (fromDigitsBE 256 rest)).length :=
      lt_of_lt_of_le hhigh (Nat.pow_le_pow_left (by norm_num) _)
    have h4 : rest'.length < (digitsLE 58 F (fromDigitsBE 256 rest)).length :=
      (Nat.pow_lt_pow_iff_right (by norm_num)).mp (lt_of_le_of_lt hlow hhigh')
    have h6 : rest.length = rest'.length + 1 := by rw [hrestc]; rfl
    omega
  have hdig256 : digitsLE 256
      (List.replicate k '1' ++ b58Char d :: ds.reverse.map b58Char).length
      (fromDigitsBE 256 rest) = rest.reverse := by
    have hSlen : rest.reverse.length
        ≤ (List.replicate k '1' ++ b58Char d :: ds.reverse.map b58Char).length := by
      rw [List.length_reverse, List.length_append, List.length_replicate]
      have h5 : (digitsLE 58 F (fromDigitsBE 256 rest)).length
          = (b58Char d :: ds.reverse.map b58Char).length := by
        rw [show (b58Char d :: ds.reverse.map b58Char) = (d :: ds.reverse).map b58Char
          from rfl]
        rw [List.length_map, ← hdrev, List.length_reverse]
      omega
    have := digitsLE_fromDigitsLE 256 (by norm_num) rest.reverse hrev_mem hrev_last' _ hSlen
    rwa [← hn_eq] at this
  rw [hdig256, List.reverse_reverse, map_const_eq_replicate, List.length_replicate]

/-- Decoding inverts encoding for every nonempty byte sequence (mr-tron
base58, both directions exactly as called by go-multibase). -/
theorem b58_roundtrip (bs : List Nat) (hb : ∀ b ∈ bs, b < 256) (hne : bs ≠ []) :
    b58Decode (b58Encode bs) = some bs := by
  have hsplit : bs.takeWhile (fun b => b = 0) ++ bs.dropWhile (fun b => b = 0) = bs :=
    List.takeWhile_append_dropWhile _ _
  have hz : ∀ x ∈ bs.takeWhile (fun b => b = 0), x = 0 := by
    intro x hx
    have := List.mem_takeWhile_imp hx
    simpa using this
  have hzrep : bs.takeWhile (fun b => b = 0)
      = List.replicate (bs.takeWhile (fun b => b = 0)).length 0 :=
    List.eq_replicate_of_mem hz
  have henc : b58Encode bs
      = List.replicate (bs.takeWhile (fun b => b = 0)).length '1'
        ++ (digitsLE 58 (2 * bs.length)
            (fromDigitsBE 256 (bs.dropWhile (fun b => b = 0)))).reverse.map b58Char := by
    rw [b58Encode, map_const_eq_replicate]
  cases hrestc : bs.dropWhile (fun b => b = 0) with
  | nil =>
    have hbs : bs = bs.takeWhile (fun b => b = 0) := by
      conv_lhs => rw [← hsplit]
      rw [hrestc, List.append_nil]
    have hk : (bs.takeWhile (fun b => b = 0)).length ≠ 0 := by
      intro h
      exact hne (by rw [hbs, List.eq_nil_of_length_eq_zero h])
    rw [henc, hrestc]
    have hn0 : fromDigitsBE 256 ([] : List Nat) = 0 := rfl
    rw [hn0, digitsLE_of_zero]
    simp only [List.reverse_nil, List.map_nil, List.append_nil]
    have hne' : (List.replicate (bs.takeWhile (fun b => b = 0)).length '1').isEmpty
        = false := by
      cases h : List.replicate (bs.takeWhile (fun b => b = 0)).length '1' with
      | nil => exact absurd (by simpa using congrArg List.length h) hk
      | cons a t => rfl
    rw [b58Decode, hne']
    simp only [Bool.false_eq_true, if_false]
    have hdec : b58DecodeNum
        (List.replicate (bs.takeWhile (fun b => b = 0)).length '1') 0 = some 0 := by
      have := b58DecodeNum_append_ones (bs.takeWhile (fun b => b = 0)).length []
      simpa using this
    rw [hdec, Option.map_some']
    have htw : (List.replicate (bs.takeWhile (fun b => b = 0)).length '1').takeWhile
        (fun c => c = '1')
        = List.replicate (bs.takeWhile (fun b => b = 0)).length '1' := by
      have := takeWhile_append_all (fun c => decide (c = '1'))
        (List.replicate (bs.takeWhile (fun b => b = 0)).length '1') []
        (by intro x hx; simp [List.eq_of_mem_replicate hx])
      simpa using this
    rw [htw, digitsLE_of_zero]
    simp only [List.reverse_nil, List.append_nil, Option.some.injEq]
    rw [map_const_eq_replicate, List.length_replicate]
    conv_rhs => rw [hbs]
    exact hzrep.symm
  | cons r rest' =>
    have hmemr : ∀ x ∈ bs.dropWhile (fun b => b = 0), x < 256 := by
      intro x hx
      exact hb x (by rw [← hsplit]; exact List.mem_append_right _ hx)
    have hhd : (bs.dropWhile (fun b => b = 0)).head? ≠ some 0 := by
      intro h
      have := head_dropWhile_false (fun b => decide (b = 0)) bs 0 h
      simpa using this
    have hnel : bs.dropWhile (fun b => b = 0) ≠ [] := by rw [hrestc]; simp
    have hrest_len : (bs.dropWhile (fun b => b = 0)).length ≤ bs.length := by
      conv_rhs => rw [← hsplit]
      rw [List.length_append]
      omega
    have hFlt : fromDigitsBE 256 (bs.dropWhile (fun b => b = 0))
        < 58 ^ (2 * bs.length) := by
      have h1 : fromDigitsBE 256 (bs.dropWhile (fun b => b = 0))
          < 256 ^ (bs.dropWhile (fun b => b = 0)).length := by
        rw [fromDigitsBE_eq]
        have := fromDigitsLE_lt 256 (by norm_num) (bs.dropWhile (fun b => b = 0)).reverse
          (fun x hx => hmemr x (List.mem_reverse.mp hx))
        rwa [List.length_reverse] at this
      calc fromDigitsBE 256 (bs.dropWhile (fun b => b = 0))
          < 256 ^ (bs.dropWhile (fun b => b = 0)).length := h1
      _ ≤ (58 ^ 2) ^ (bs.dropWhile (fun b => b = 0)).length :=
          Nat.pow_le_pow_left (by norm_num) _
      _ = 58 ^ (2 * (bs.dropWhile (fun b => b = 0)).length) := by rw [← Nat.pow_mul]
      _ ≤ 58 ^ (2 * bs.length) := Nat.pow_le_pow_right (by norm_num) (by omega)
    rw [henc]
    rw [b58Decode_encoded _ _ _ hmemr hhd hnel hFlt]
    rw [← hzrep, hsplit]

/-- go-multibase round trip for the base58btc branch used by `FormatKeyURI`. -/
theorem mbDecode_mbEncode58 (bs : List Nat) (hb : ∀ b ∈ bs, b < 256) (hne : bs ≠ []) :
    mbDecode (mbEncode58 bs) = some ('z', bs) := by
  rw [mbEncode58, mbDecode]
  simp only [if_pos rfl]
  rw [b58_roundtrip bs hb hne]
  rfl

/-! ### Codec helper lemmas -/

theorem isPrefixOf_append_self :
    ∀ p s : List Char, p.isPrefixOf (p ++ s) = true := by
  intro p s
  induction p with
  | nil => simp [List.isPrefixOf]
  | cons c t ih => simp [List.isPrefixOf, ih]

theorem trimPfx_append (p s : List Char) : trimPfx (p ++ s) p = s := by
  rw [trimPfx, if_pos (isPrefixOf_append_self p s), List.drop_left]

/-- Any `"did:key:<s>"` URI passes the prefix guard and is trimmed to `s`. -/
theorem ParseKeyURI_didKeyColon (s : List Char) :
    ParseKeyURI (keyPrefixStr ++ ':' :: s) = parsePayload (mbDecode s) := by
  rw [ParseKeyURI, isPrefixOf_append_self keyPrefixStr (':' :: s)]
  rw [if_neg (by simp)]
  have h2 : trimPfx (keyPrefixStr ++ ':' :: s) (keyPrefixStr ++ [':']) = s := by
    rw [show keyPrefixStr ++ ':' :: s = (keyPrefixStr ++ [':']) ++ s from by simp]
    exact trimPfx_append _ _
  rw [h2]

/-- Parsing the base58btc multibase text of a payload reaches the
varint-dispatch stage with exactly that payload. -/
theorem ParseKeyURI_encoded (data : List Nat)
    (hb : ∀ b ∈ data, b < 256) (hne : data ≠ []) :
    ParseKeyURI (keyPrefixStr ++ ':' :: mbEncode58 data) = parseKeyData data := by
  rw [ParseKeyURI_didKeyColon, mbDecode_mbEncode58 data hb hne]
  rfl

theorem parseKeyData_ok (data : List Nat) (t n : Nat)
    (hv : fromUvarint data = .ok (t, n)) :
    parseKeyData data
      = (if t = 0xed then
          (unmarshalEd25519PublicKey (data.drop n)).mapError
            fun _ => ParseKeyErr.unmarshalFailed
        else if t = 0xe7 then
          (unmarshalSecp256k1PublicKey (data.drop n)).mapError
            fun _ => ParseKeyErr.unmarshalFailed
        else if t = 0xef01 then
          (unmarshalEthPublicKey (data.drop n)).mapError
            fun _ => ParseKeyErr.unmarshalFailed
        else .error .invalidKeyType) := by
  rw [parseKeyData, hv]
  rfl

theorem fromUvarint_ed (raw : List Nat) :
    fromUvarint (putUvarint multicodecKindEd25519PubKey ++ raw) = .ok (0xed, 2) := rfl

theorem fromUvarint_secp (raw : List Nat) :
    fromUvarint (putUvarint multicodecKindSecp256k1PubKey ++ raw) = .ok (0xe7, 2) := rfl

theorem fromUvarint_eth (raw : List Nat) :
    fromUvarint (putUvarint multicodecKindEthPubKey ++ raw) = .ok (0xef01, 3) := rfl

theorem drop_putUvarint_ed (raw : List Nat) :
    (putUvarint multicodecKindEd25519PubKey ++ raw).drop 2 = raw := rfl

theorem drop_putUvarint_secp (raw : List Nat) :
    (putUvarint multicodecKindSecp256k1PubKey ++ raw).drop 2 = raw := rfl

theorem drop_putUvarint_eth (raw : List Nat) :
    (putUvarint multicodecKindEthPubKey ++ raw).drop 3 = raw := rfl

/-- Bytes of a supported tag's varint together with raw key bytes are bytes. -/
theorem tag_payload_bytes (tag : Nat) (raw : List Nat)
    (htag : ∀ b ∈ putUvarint tag, b < 256) (hbytes : ∀ b ∈ raw, b < 256) :
    ∀ b ∈ putUvarint tag ++ raw, b < 256 := by
  intro b hbmem
  rcases List.mem_append.mp hbmem with h | h
  · exact htag b h
  · exact hbytes b h

theorem tag_payload_ne_nil (tag : Nat) (raw : List Nat)
    (hne : putUvarint tag ≠ []) : putUvarint tag ++ raw ≠ [] := by
  intro h
  exact hne (List.append_eq_nil.mp h).1

theorem formatKeyURI_supported (k : PubKey) (hraw : k.rawErr = false) :
    (k.ktype = .Ed25519 → FormatKeyURI k
      = keyPrefixStr ++ ':' :: mbEncode58 (putUvarint multicodecKindEd25519PubKey
          ++ k.rawBytes))
    ∧ (k.ktype = .Secp256k1 → FormatKeyURI k
      = keyPrefixStr ++ ':' :: mbEncode58 (putUvarint multicodecKindSecp256k1PubKey
          ++ k.rawBytes))
    ∧ (k.ktype = .Eth → FormatKeyURI k
      = keyPrefixStr ++ ':' :: mbEncode58 (putUvarint multicodecKindEthPubKey
          ++ k.rawBytes)) := by
  refine ⟨?_, ?_, ?_⟩ <;> intro hk <;> simp [FormatKeyURI, PubKey.Raw, hraw, hk]

theorem formatKeyURI_nil_of_unsupported (k : PubKey)
    (h : (∃ code, k.ktype = .Other code) ∨ k.rawErr = true) :
    FormatKeyURI k = [] := by
  rcases h with ⟨code, hk⟩ | hr
  · by_cases hr : k.rawErr
    · simp [FormatKeyURI, PubKey.Raw, hr]
    · simp [FormatKeyURI, PubKey.Raw, hr, hk]
  · simp [FormatKeyURI, PubKey.Raw, hr]

/-! ### Claim theorems -/

/-- C1: round trip of the key codec. For every supported public key (type
Ed25519, Secp256k1, or Eth-style, with a working raw-bytes accessor whose
bytes have the type's raw serialization length), `FormatKeyURI` returns a
non-empty URI, and `ParseKeyURI` of that URI succeeds with a key whose raw
bytes equal the original key's raw bytes. -/
theorem keyCodec_roundtrip (k : PubKey)
    (hsupp : k.ktype = .Ed25519 ∨ k.ktype = .Secp256k1 ∨ k.ktype = .Eth)
    (hraw : k.rawErr = false)
    (hbytes : ∀ b ∈ k.rawBytes, b < 256)
    (hlen : k.rawBytes.length = keyRawLen k.ktype) :
    FormatKeyURI k ≠ []
    ∧ ∃ k2, ParseKeyURI (FormatKeyURI k) = .ok k2 ∧ k2.rawBytes = k.rawBytes := by
  rcases hsupp with hk | hk | hk
  · have hfmt := (formatKeyURI_supported k hraw).1 hk
    rw [hk] at hlen
    simp only [keyRawLen] at hlen
    refine ⟨by rw [hfmt]; simp [keyPrefixStr],
      { ktype := .Ed25519, rawBytes := k.rawBytes }, ?_, rfl⟩
    rw [hfmt, ParseKeyURI_encoded _
      (tag_payload_bytes _ _ (by decide) hbytes) (tag_payload_ne_nil _ _ (by decide))]
    rw [parseKeyData_ok _ _ _ (fromUvarint_ed k.rawBytes)]
    rw [drop_putUvarint_ed, unmarshalEd25519PublicKey, if_pos hlen]
    rfl
  · have hfmt := (formatKeyURI_supported k hraw).2.1 hk
    rw [hk] at hlen
    simp only [keyRawLen] at hlen
    refine ⟨by rw [hfmt]; simp [keyPrefixStr],
      { ktype := .Secp256k1, rawBytes := k.rawBytes }, ?_, rfl⟩
    rw [hfmt, ParseKeyURI_encoded _
      (tag_payload_bytes _ _ (by decide) hbytes) (tag_payload_ne_nil _ _ (by decide))]
    rw [parseKeyData_ok _ _ _ (fromUvarint_secp k.rawBytes)]
    rw [drop_putUvarint_secp, unmarshalSecp256k1PublicKey, if_pos hlen]
    rfl
  · have hfmt := (formatKeyURI_supported k hraw).2.2 hk
    rw [hk] at hlen
    simp only [keyRawLen] at hlen
    refine ⟨by rw [hfmt]; simp [keyPrefixStr],
      { ktype := .Eth, rawBytes := k.rawBytes }, ?_, rfl⟩
    rw [hfmt, ParseKeyURI_encoded _
      (tag_payload_bytes _ _ (by decide) hbytes) (tag_payload_ne_nil _ _ (by decide))]
    rw [parseKeyData_ok _ _ _ (fromUvarint_eth k.rawBytes)]
    rw [drop_putUvarint_eth, unmarshalEthPublicKey, if_pos hlen]
    rfl

/-- C1 witness: a concrete Ed25519 key round-trips. -/
theorem keyCodec_roundtrip_witness :
    FormatKeyURI pubkEx ≠ []
    ∧ ∃ k2, ParseKeyURI (FormatKeyURI pubkEx) = .ok k2
        ∧ k2.rawBytes = pubkEx.rawBytes :=
  keyCodec_roundtrip pubkEx (Or.inl rfl) rfl (by decide) (by decide)

/-- C4: `FormatKeyURI` returns the empty string (and cannot fail) for every
key whose type is outside {Ed25519, Secp256k1, Eth-style} and for every key
whose raw-bytes accessor fails. -/
theorem formatKeyURI_unsupported_empty (k : PubKey)
    (h : (∃ code, k.ktype = .Other code) ∨ k.rawErr = true) :
    FormatKeyURI k = [] :=
  formatKeyURI_nil_of_unsupported k h

/-- C4 witness: the bogus `0xaa`-typed key and the failing-`Raw()` key from
the repository's tests both format to the empty string. -/
theorem formatKeyURI_unsupported_empty_witness :
    FormatKeyURI { ktype := .Other 0xaa, rawBytes := [1, 2, 3] } = []
    ∧ FormatKeyURI { ktype := .Ed25519, rawBytes := [], rawErr := true } = [] :=
  ⟨formatKeyURI_unsupported_empty _ (Or.inl ⟨0xaa, rfl⟩),
   formatKeyURI_unsupported_empty _ (Or.inr rfl)⟩

/-- C5 counterexample: the claim says every URI without the exact
`"did:key:"` prefix fails with the invalid-method error, before any
multibase decoding. But the code only checks the prefix `"did:key"`
(without the colon): `"did:keyzabc"` lacks the `"did:key:"` prefix yet
reaches multibase decoding and fails with the multibase decode error, not
the invalid-method error. -/
theorem parseKeyURI_method_guard_counterexample :
    (keyPrefixStr ++ [':']).isPrefixOf
        ['d', 'i', 'd', ':', 'k', 'e', 'y', 'z', 'a', 'b', 'c'] = false
    ∧ ParseKeyURI ['d', 'i', 'd', ':', 'k', 'e', 'y', 'z', 'a', 'b', 'c']
        = .error .decodingMultibase
    ∧ ParseKeyURI ['d', 'i', 'd', ':', 'k', 'e', 'y', 'z', 'a', 'b', 'c']
        ≠ .error .notKeyDID := by
  refine ⟨by decide, by decide, by decide⟩

/-- C5 (amended): `ParseKeyURI` fails with the invalid-method error for
every URI that does not start with `"did:key"` (without the trailing
colon), rejecting it before any multibase decoding; a URI with the
`"did:key"` prefix but no following colon instead proceeds to multibase
decoding of the untrimmed string. -/
theorem parseKeyURI_method_guard (uri : List Char)
    (h : keyPrefixStr.isPrefixOf uri = false) :
    ParseKeyURI uri = .error .notKeyDID := by
  rw [ParseKeyURI, h, if_pos rfl]

/-- C5 witness: the claim's own example `"did:web:xyz"`. -/
theorem parseKeyURI_method_guard_witness :
    ParseKeyURI ['d', 'i', 'd', ':', 'w', 'e', 'b', ':', 'x', 'y', 'z']
      = .error .notKeyDID :=
  parseKeyURI_method_guard _ (by decide)

/-- C6: for every `"did:key:"` URI whose remainder multibase-decodes with a
marker other than base58btc (`'z'`), `ParseKeyURI` fails with the
unexpected-multibase-encoding error. -/
theorem parseKeyURI_wrong_multibase (s : List Char) (enc : Char) (data : List Nat)
    (hdec : mbDecode s = some (enc, data)) (henc : enc ≠ 'z') :
    ParseKeyURI (keyPrefixStr ++ ':' :: s) = .error .unexpectedEncoding := by
  rw [ParseKeyURI_didKeyColon, hdec]
  simp [parsePayload, henc]

/-- C6 witness: the spec's example `"did:key:uSGVsbG8"`, whose base-64
`'u'`-marked payload decodes to the bytes of `"Hello"`. -/
theorem parseKeyURI_wrong_multibase_witness :
    ParseKeyURI (keyPrefixStr ++ ':' :: ['u', 'S', 'G', 'V', 's', 'b', 'G', '8'])
      = .error .unexpectedEncoding :=
  parseKeyURI_wrong_multibase ['u', 'S', 'G', 'V', 's', 'b', 'G', '8'] 'u'
    [72, 101, 108, 108, 111] (by decide) (by decide)

/-- C7: for every base58btc-encoded `"did:key:"` payload whose leading
varint tag parses, a tag outside {0xED, 0xE7, 0xEF01} fails with
`ErrInvalidKeyType`, and exactly those three tags dispatch to the
corresponding key-unmarshal routine on the remaining bytes. -/
theorem parseKeyURI_tag_dispatch (data : List Nat)
    (hb : ∀ b ∈ data, b < 256) (hne : data ≠ [])
    (t n : Nat) (hv : fromUvarint data = .ok (t, n)) :
    (t ≠ 0xed → t ≠ 0xe7 → t ≠ 0xef01 →
      ParseKeyURI (keyPrefixStr ++ ':' :: mbEncode58 data) = .error .invalidKeyType)
    ∧ (t = 0xed → ParseKeyURI (keyPrefixStr ++ ':' :: mbEncode58 data)
        = (unmarshalEd25519PublicKey (data.drop n)).mapError
            fun _ => ParseKeyErr.unmarshalFailed)
    ∧ (t = 0xe7 → ParseKeyURI (keyPrefixStr ++ ':' :: mbEncode58 data)
        = (unmarshalSecp256k1PublicKey (data.drop n)).mapError
            fun _ => ParseKeyErr.unmarshalFailed)
    ∧ (t = 0xef01 → ParseKeyURI (keyPrefixStr ++ ':' :: mbEncode58 data)
        = (unmarshalEthPublicKey (data.drop n)).mapError
            fun _ => ParseKeyErr.unmarshalFailed) := by
  have hstep : ParseKeyURI (keyPrefixStr ++ ':' :: mbEncode58 data)
      = parseKeyData data := ParseKeyURI_encoded data hb hne
  rw [hstep, parseKeyData_ok data t n hv]
  refine ⟨?_, ?_, ?_, ?_⟩
  · intro h1 h2 h3
    rw [if_neg h1, if_neg h2, if_neg h3]
  · intro h1
    rw [if_pos h1]
  · intro h2
    rw [if_neg (by rw [h2]; decide), if_pos h2]
  · intro h3
    rw [if_neg (by rw [h3]; decide), if_neg (by rw [h3]; decide), if_pos h3]

/-- C7 witness: the payload `[0x01]` parses as tag 1 and is rejected with
`ErrInvalidKeyType`. -/
theorem parseKeyURI_tag_dispatch_witness :
    ParseKeyURI (keyPrefixStr ++ ':' :: mbEncode58 [1]) = .error .invalidKeyType :=
  (parseKeyURI_tag_dispatch [1] (by decide) (by decide) 1 1 (by decide)).1
    (by decide) (by decide) (by decide)

/-- C10: `FromPublicKey` is total with no error channel: for a key with an
unsupported type or failing raw-bytes accessor it returns the empty DID
(`URI = ""`, `Empty() = true`), storing `FormatKeyURI`'s empty string
verbatim. -/
theorem fromPublicKey_total (k : PubKey)
    (h : (∃ code, k.ktype = .Other code) ∨ k.rawErr = true) :
    FromPublicKey k = ⟨[]⟩ ∧ (FromPublicKey k).Empty = true := by
  have h2 := formatKeyURI_nil_of_unsupported k h
  constructor
  · rw [FromPublicKey, h2]
  · simp [FromPublicKey, DID.Empty, h2]

/-- C10 witness: the bogus `0xaa`-typed key yields the empty DID. -/
theorem fromPublicKey_total_witness :
    FromPublicKey { ktype := .Other 0xaa, rawBytes := [1, 2, 3] } = ⟨[]⟩
    ∧ (FromPublicKey { ktype := .Other 0xaa, rawBytes := [1, 2, 3] }).Empty = true :=
  fromPublicKey_total _ (Or.inl ⟨0xaa, rfl⟩)

/-- C3: `FromString ""` succeeds with the zero DID; a non-empty string is
rejected with `ErrInvalidDID` exactly when it does not split on `":"` into
three segments or some segment is empty, and otherwise is stored verbatim. -/
theorem fromString_validation :
    FromString [] = .ok ⟨[]⟩
    ∧ ∀ s : List Char, s ≠ [] →
        (((stringsSplitCh ':' s).length ≠ 3 ∨ ∃ p ∈ stringsSplitCh ':' s, p = []) →
          FromString s = .error .invalidDID)
        ∧ ((stringsSplitCh ':' s).length = 3 → (∀ p ∈ stringsSplitCh ':' s, p ≠ []) →
          FromString s = .ok ⟨s⟩) := by
  refine ⟨rfl, ?_⟩
  intro s hs
  constructor
  · intro h
    rw [FromString, if_pos hs]
    by_cases hl : (stringsSplitCh ':' s).length ≠ 3
    · rw [if_pos hl]
    · rw [if_neg hl]
      have hex : ∃ p ∈ stringsSplitCh ':' s, p = [] := by
        rcases h with h | h
        · exact absurd h hl
        · exact h
      have hany : (stringsSplitCh ':' s).any (fun p => p.isEmpty) = true := by
        rw [List.any_eq_true]
        obtain ⟨p, hp, hpe⟩ := hex
        exact ⟨p, hp, by simp [hpe]⟩
      rw [if_pos hany]
  · intro h3 hall
    have hnotany : ¬ (stringsSplitCh ':' s).any (fun p => p.isEmpty) = true := by
      rw [List.any_eq_true]
      rintro ⟨p, hp, hpe⟩
      exact hall p hp (by simpa using hpe)
    rw [FromString, if_pos hs,
      if_neg (show ¬ (stringsSplitCh ':' s).length ≠ 3 from fun hc => hc h3),
      if_neg hnotany]

/-- C3 witness: `"a:b:c"` is accepted verbatim and `"a:b"` is rejected. -/
theorem fromString_validation_witness :
    FromString ['a', ':', 'b', ':', 'c'] = .ok ⟨['a', ':', 'b', ':', 'c']⟩
    ∧ FromString ['a', ':', 'b'] = .error .invalidDID :=
  ⟨(fromString_validation.2 _ (by decide)).2 (by decide) (by decide),
   (fromString_validation.2 _ (by decide)).1 (Or.inl (by decide))⟩

/-- C9: for every DID whose URI does not split on `":"` into exactly three
segments, `Method()` and `Identifier()` both return the empty string; both
are total functions with no error channel. -/
theorem method_identifier_malformed (d : DID)
    (h : (stringsSplitCh ':' d.URI).length ≠ 3) :
    d.Method = [] ∧ d.Identifier = [] := by
  refine ⟨?_, ?_⟩ <;> simp [DID.Method, DID.Identifier, h]

/-- C9 witness: the test file's `"did:key"` URI (two segments). -/
theorem method_identifier_malformed_witness :
    DID.Method ⟨['d', 'i', 'd', ':', 'k', 'e', 'y']⟩ = []
    ∧ DID.Identifier ⟨['d', 'i', 'd', ':', 'k', 'e', 'y']⟩ = [] :=
  method_identifier_malformed _ (by decide)

/-- C2: `GetAnchor` behaviour, stated for every resolver so that the cache
hit's independence from the resolver ("without invoking the resolver") is
part of the statement; the code instantiates the resolver with
`GetAnchorForDID`. A present entry (expired or not) is refreshed to
`now + anchorEntryTTL` and its anchor returned; with no entry, a resolver
error is returned wrapped with the state unchanged, and a resolver success
is inserted keyed by the anchor's DID with expiry `now + anchorEntryTTL`
and returned. -/
theorem getAnchor_cache_spec (resolve : DID → Except ResolveErr Anchor)
    (ctx : BasicTrustContext) (now : Nat) (d : DID) :
    (∀ entry, lookupEntry ctx.anchors d = some entry →
      BasicTrustContext.GetAnchorWith resolve ctx now d
        = ({ ctx with anchors :=
              insertEntry ctx.anchors d ⟨entry.anchor, now + anchorEntryTTL⟩ },
           .ok entry.anchor))
    ∧ (lookupEntry ctx.anchors d = none →
        (∀ e, resolve d = .error e →
          BasicTrustContext.GetAnchorWith resolve ctx now d
            = (ctx, .error (.wrapped e)))
        ∧ (∀ a, resolve d = .ok a →
          BasicTrustContext.GetAnchorWith resolve ctx now d
            = ({ ctx with anchors :=
                  insertEntry ctx.anchors a.did ⟨a, now + anchorEntryTTL⟩ },
               .ok a))) := by
  constructor
  · intro entry hentry
    rw [BasicTrustContext.GetAnchorWith, BasicTrustContext.getAnchorLocked, hentry]
  · intro hnone
    constructor
    · intro e he
      rw [BasicTrustContext.GetAnchorWith, BasicTrustContext.getAnchorLocked, hnone, he]
    · intro a ha
      rw [BasicTrustContext.GetAnchorWith, BasicTrustContext.getAnchorLocked, hnone, ha]
      rfl

/-- C2 witness: a context holding one (long-expired) entry refreshes it and
returns the cached anchor under a resolver that always fails. -/
theorem getAnchor_cache_spec_witness :
    BasicTrustContext.GetAnchorWith (fun _ => .error .noAnchorMethod) ctxEx 5 didEx
      = ({ ctxEx with anchors :=
            insertEntry ctxEx.anchors didEx ⟨entryEx.anchor, 5 + anchorEntryTTL⟩ },
         .ok entryEx.anchor) :=
  (getAnchor_cache_spec (fun _ => .error .noAnchorMethod) ctxEx 5 didEx).1 entryEx rfl

/-- C8: the garbage-collection sweep keeps exactly the anchor entries whose
expiry is not strictly before `now` (removing exactly the strictly-expired
ones, leaving every other entry unchanged) and never touches providers. -/
theorem gcAnchorEntries_spec (ctx : BasicTrustContext) (now : Nat) :
    (ctx.gcAnchorEntries now).providers = ctx.providers
    ∧ ∀ d e, (d, e) ∈ (ctx.gcAnchorEntries now).anchors
        ↔ ((d, e) ∈ ctx.anchors ∧ ¬ e.expire < now) := by
  refine ⟨rfl, ?_⟩
  intro d e
  simp [BasicTrustContext.gcAnchorEntries, List.mem_filter]

end Did
